import Mathlib

/-!
Verification development for the RAG Bible retrieval pipeline.

The definitions below are a shallow embedding of the retrieval core:

* src/rag/retrieve.py : score normalization (logistic sigmoid) and the
  two-stage search (candidate filtering, reranking, sorting, truncation);
* src/app.py : the context expander (get_verse_context) and the reverse
  verse index built at startup (lifespan).

Real-valued scores are modelled by the real numbers; the opaque external
capabilities (embedding model, FAISS index, cross-encoder) appear as
parameters: the index response is the list of returned positions, and the
cross-encoder is a function from a (query, text) pair to a raw score.
-/

namespace RagBible

/-- Verse Record as built by build_mapping in src/ingest.py: one JSON object
per corpus verse, positionally aligned with the FAISS index rows. -/
structure VerseEntry where
  rowid : Int
  book : String
  book_id : Int
  book_title : String
  chapter : String
  chapter_id : Int
  chapter_title : String
  verse : String
  text : String
deriving Inhabited, DecidableEq

/-- Search Result as assembled by search in src/rag/retrieve.py: a record
with exactly the five keys book_title, chapter, verse, text, score. -/
structure SearchResult where
  book_title : String
  chapter : String
  verse : String
  text : String
  score : ℝ

/-- Context Window entry as assembled by get_verse_context in src/app.py:
chapter, verse, text and the is_match flag. -/
structure ContextEntry where
  chapter : String
  verse : String
  text : String
  is_match : Bool
deriving DecidableEq

/-- config.QUERY_PREFIX from src/config.py (empty for the MiniLM model). -/
def QUERY_PREFIX : String := ""

/-- config.FAISS_TOP_K from src/config.py. -/
def FAISS_TOP_K : Nat := 20

/-- config.RERANK_TOP_K from src/config.py. -/
def RERANK_TOP_K : Nat := 5

/-- config.CONTEXT_VERSES from src/config.py. -/
def CONTEXT_VERSES : Nat := 2

/-- normalize_scores from src/rag/retrieve.py: the vectorized numpy
expression 1.0 / (1.0 + np.exp(-raw_scores)), applied elementwise. -/
noncomputable def normalize_scores (raw_scores : List ℝ) : List ℝ :=
  raw_scores.map (fun x => 1 / (1 + Real.exp (-x)))

/-- Modelled from the spec: the standard logistic sigmoid
f(x) = 1 / (1 + e^-x), the transform the Score Normalizer contract names.
Used to compare the code's normalize_scores against the spec's formula. -/
noncomputable def sigmoid (x : ℝ) : ℝ :=
  1 / (1 + Real.exp (-x))

/-- Candidate-filtering loop of search in src/rag/retrieve.py: each
position returned by the index is kept iff 0 <= idx < len(mapping), and is
paired with the newline-stripped text and the mapping entry. -/
def valid_candidates (candidate_indices : List Int) (mapping : List VerseEntry) :
    List (Nat × String × VerseEntry) :=
  candidate_indices.filterMap (fun idx =>
    if 0 ≤ idx ∧ idx < (mapping.length : Int) then
      some (idx.toNat, (mapping.getD idx.toNat default).text.replace "\n" " ",
        mapping.getD idx.toNat default)
    else none)

/-- search from src/rag/retrieve.py, after the query embedding and index
call: candidate_indices is the index response (indices[0]), cross_encoder
is the opaque reranking capability scoring one (query, text) pair. -/
noncomputable def search (query : String) (candidate_indices : List Int)
    (mapping : List VerseEntry) (cross_encoder : String → String → ℝ)
    (rerank_top_k : Nat) : List SearchResult :=
  let prefixed_query := QUERY_PREFIX ++ query
  let query_clean := prefixed_query.replace "\n" " "
  let candidates := valid_candidates candidate_indices mapping
  let pairs := candidates.map (fun c => (query_clean, c.2.1))
  let raw_scores := pairs.map (fun p => cross_encoder p.1 p.2)
  let normalized := normalize_scores raw_scores
  let scored := List.zipWith
    (fun c s => SearchResult.mk c.2.2.book_title c.2.2.chapter c.2.2.verse
      c.2.2.text s)
    candidates normalized
  (scored.mergeSort (fun a b => decide (b.score ≤ a.score))).take rerank_top_k

/-- Backward scan of get_verse_context in src/app.py: from the found
position, step back while fuel remains, the sequence start is not reached,
and the previous entry still belongs to the matched book. -/
def scan_back (mapping : List VerseEntry) (matched_book_id : Int) :
    Nat → Nat → Nat
  | 0, start => start
  | fuel + 1, start =>
    if 0 < start ∧ (mapping.getD (start - 1) default).book_id = matched_book_id then
      scan_back mapping matched_book_id fuel (start - 1)
    else start

/-- Forward scan of get_verse_context in src/app.py: from the found
position, step forward while fuel remains, the sequence end is not reached,
and the next entry still belongs to the matched book. -/
def scan_forward (mapping : List VerseEntry) (matched_book_id : Int) :
    Nat → Nat → Nat
  | 0, stop => stop
  | fuel + 1, stop =>
    if stop + 1 < mapping.length ∧
        (mapping.getD (stop + 1) default).book_id = matched_book_id then
      scan_forward mapping matched_book_id fuel (stop + 1)
    else stop

/-- get_verse_context from src/app.py: look the result's key up in the
reverse verse index; on a miss return the single-entry fallback built from
the result's own fields; on a hit expand to the book-bounded window. -/
def get_verse_context (result : SearchResult) (mapping : List VerseEntry)
    (verse_index : String × String × String → Option Nat) (n : Nat) :
    List ContextEntry :=
  let key := (result.book_title, result.chapter, result.verse)
  match verse_index key with
  | none => [ContextEntry.mk result.chapter result.verse result.text true]
  | some idx =>
    let matched_book_id := (mapping.getD idx default).book_id
    let start := scan_back mapping matched_book_id n idx
    let stop := scan_forward mapping matched_book_id n idx
    (List.range' start (stop + 1 - start)).map (fun i =>
      ContextEntry.mk (mapping.getD i default).chapter
        (mapping.getD i default).verse (mapping.getD i default).text (i == idx))

/-- Insertion into a dict modelled as a function: later insertions of the
same key overwrite earlier ones, as for a Python dict assignment. -/
def dict_insert {α β : Type} [DecidableEq α] (d : α → Option β) (k : α) (v : β) :
    α → Option β :=
  fun x => if x = k then some v else d x

/-- Reverse-index construction from lifespan in src/app.py: iterate the
mapping with enumerate and assign verse_idx[key] = i, last write winning. -/
def build_verse_index (mapping : List VerseEntry) :
    String × String × String → Option Nat :=
  mapping.enum.foldl
    (fun d p => dict_insert d (p.2.book_title, p.2.chapter, p.2.verse) p.1)
    (fun _ => none)

/-- Start of the context window: the backward scan launched at the found
position idx with fuel n and the matched book id. -/
def context_start (mapping : List VerseEntry) (n idx : Nat) : Nat :=
  scan_back mapping (mapping.getD idx default).book_id n idx

/-- End of the context window: the forward scan launched at the found
position idx with fuel n and the matched book id. -/
def context_stop (mapping : List VerseEntry) (n idx : Nat) : Nat :=
  scan_forward mapping (mapping.getD idx default).book_id n idx

theorem sigmoid_pos (x : ℝ) : 0 < sigmoid x := by
  unfold sigmoid
  positivity

theorem sigmoid_lt_one (x : ℝ) : sigmoid x < 1 := by
  unfold sigmoid
  have h := Real.exp_pos (-x)
  rw [div_lt_one (by linarith)]
  linarith

theorem exp_ten_ge : (1024 : ℝ) ≤ Real.exp 10 := by
  have h2 : (2 : ℝ) ≤ Real.exp 1 := by
    have := Real.add_one_le_exp (1 : ℝ)
    linarith
  have hp : (2 : ℝ) ^ 10 ≤ Real.exp 1 ^ 10 := pow_le_pow_left₀ (by norm_num) h2 10
  have he : Real.exp 1 ^ 10 = Real.exp 10 := by
    simp
  rw [he] at hp
  norm_num at hp
  exact hp

theorem sigmoid_ten_gt : (0.999 : ℝ) < sigmoid 10 := by
  have h := exp_ten_ge
  have hneg : Real.exp (-10) ≤ 1 / 1024 := by
    rw [Real.exp_neg, inv_eq_one_div]
    exact one_div_le_one_div_of_le (by norm_num) h
  have hpos := Real.exp_pos (-(10 : ℝ))
  unfold sigmoid
  rw [lt_div_iff₀ (by linarith)]
  nlinarith

theorem sigmoid_neg_ten_lt : sigmoid (-10) < (0.001 : ℝ) := by
  have h := exp_ten_ge
  unfold sigmoid
  rw [neg_neg, div_lt_iff₀ (by positivity)]
  nlinarith [Real.exp_pos (10 : ℝ)]

theorem sigmoid_strictMono : StrictMono sigmoid := by
  intro a b hab
  unfold sigmoid
  have hb : 0 < 1 + Real.exp (-b) := by positivity
  have hlt : 1 + Real.exp (-b) < 1 + Real.exp (-a) := by
    have := Real.exp_lt_exp.mpr (neg_lt_neg hab)
    linarith
  exact one_div_lt_one_div_of_lt hb hlt

theorem exp_twenty_lt : Real.exp 20 < 10 ^ 9 := by
  have h : Real.exp 1 < 2.7182818286 := Real.exp_one_lt_d9
  have hp : Real.exp 1 ^ 20 < (2.7182818286 : ℝ) ^ 20 :=
    pow_lt_pow_left₀ h (Real.exp_pos 1).le (by norm_num)
  have he : Real.exp 1 ^ 20 = Real.exp 20 := by
    simp
  rw [he] at hp
  have hb : (2.7182818286 : ℝ) ^ 20 < 10 ^ 9 := by norm_num
  linarith

/-- C2: normalize_scores is an elementwise, order-preserving, pure function
equal to the logistic sigmoid f(x) = 1/(1+e^-x): it maps 0 to 0.5, is
monotonically increasing, maps 10 above 0.999 and -10 below 0.001, and
preserves the length and element order of its input. -/
theorem claim_normalize_is_sigmoid :
    (∀ l : List ℝ, normalize_scores l = l.map sigmoid) ∧
    sigmoid 0 = 1 / 2 ∧
    StrictMono sigmoid ∧
    (0.999 : ℝ) < sigmoid 10 ∧
    sigmoid (-10) < (0.001 : ℝ) ∧
    (∀ l : List ℝ, (normalize_scores l).length = l.length) ∧
    (∀ (l : List ℝ) (i : Nat), (normalize_scores l)[i]? = (l[i]?).map sigmoid) := by
  refine ⟨fun l => rfl, ?_, sigmoid_strictMono, sigmoid_ten_gt, sigmoid_neg_ten_lt, ?_, ?_⟩
  · unfold sigmoid
    rw [neg_zero, Real.exp_zero]
    norm_num
  · intro l
    simp [normalize_scores]
  · intro l i
    rw [show normalize_scores l = l.map sigmoid from rfl, List.getElem?_map]

/-- C3: on the real-valued model, every output of normalize_scores lies
strictly inside (0,1) for every input, and on the range [-20, 20] the only
intermediate quantity exp(-x) is bounded by exp 20 < 10^9, far below any
floating-point overflow threshold, so the computation is stable there. -/
theorem claim_sigmoid_range_and_stability :
    (∀ x : ℝ, 0 < sigmoid x ∧ sigmoid x < 1) ∧
    (∀ (l : List ℝ) (y : ℝ), y ∈ normalize_scores l → 0 < y ∧ y < 1) ∧
    (∀ x : ℝ, -20 ≤ x → x ≤ 20 → Real.exp (-x) ≤ Real.exp 20 ∧ Real.exp 20 < 10 ^ 9) := by
  refine ⟨fun x => ⟨sigmoid_pos x, sigmoid_lt_one x⟩, ?_, ?_⟩
  · intro l y hy
    rw [show normalize_scores l = l.map sigmoid from rfl] at hy
    obtain ⟨x, _, rfl⟩ := List.mem_map.mp hy
    exact ⟨sigmoid_pos x, sigmoid_lt_one x⟩
  · intro x hx _
    exact ⟨Real.exp_le_exp.mpr (by linarith), exp_twenty_lt⟩

/-- Witness for C3 at x = 0 and the singleton list containing 0. -/
theorem claim_sigmoid_range_and_stability_witness :
    (0 < sigmoid 0 ∧ sigmoid 0 < 1) ∧
    (Real.exp (-(0 : ℝ)) ≤ Real.exp 20 ∧ Real.exp 20 < 10 ^ 9) :=
  ⟨claim_sigmoid_range_and_stability.2.1 [0] (sigmoid 0)
      (by simp [normalize_scores, sigmoid]),
    claim_sigmoid_range_and_stability.2.2 0 (by norm_num) (by norm_num)⟩

theorem scan_back_le_and_fuel (mapping : List VerseEntry) (b : Int) :
    ∀ (fuel start : Nat),
      scan_back mapping b fuel start ≤ start ∧
      start - scan_back mapping b fuel start ≤ fuel := by
  intro fuel
  induction fuel with
  | zero =>
    intro start
    simp [scan_back]
  | succ f ih =>
    intro start
    by_cases hc : 0 < start ∧ (mapping.getD (start - 1) default).book_id = b
    · rw [scan_back, if_pos hc]
      obtain ⟨ih1, ih2⟩ := ih (start - 1)
      omega
    · rw [scan_back, if_neg hc]
      omega

theorem scan_back_same_book (mapping : List VerseEntry) (b : Int) :
    ∀ (fuel start : Nat), (mapping.getD start default).book_id = b →
      ∀ i, scan_back mapping b fuel start ≤ i → i ≤ start →
        (mapping.getD i default).book_id = b := by
  intro fuel
  induction fuel with
  | zero =>
    intro start hs i h1 h2
    simp only [scan_back] at h1
    have : i = start := le_antisymm h2 h1
    rwa [this]
  | succ f ih =>
    intro start hs i h1 h2
    by_cases hc : 0 < start ∧ (mapping.getD (start - 1) default).book_id = b
    · rw [scan_back, if_pos hc] at h1
      rcases Nat.lt_or_ge i start with hlt | hge
      · exact ih (start - 1) hc.2 i h1 (by omega)
      · have : i = start := le_antisymm h2 hge
        rwa [this]
    · rw [scan_back, if_neg hc] at h1
      have : i = start := le_antisymm h2 h1
      rwa [this]

theorem scan_back_stop_reason (mapping : List VerseEntry) (b : Int) :
    ∀ (fuel start : Nat), start - scan_back mapping b fuel start < fuel →
      scan_back mapping b fuel start = 0 ∨
      (mapping.getD (scan_back mapping b fuel start - 1) default).book_id ≠ b := by
  intro fuel
  induction fuel with
  | zero =>
    intro start h
    simp only [scan_back] at h
    omega
  | succ f ih =>
    intro start h
    by_cases hc : 0 < start ∧ (mapping.getD (start - 1) default).book_id = b
    · rw [scan_back, if_pos hc] at h ⊢
      apply ih (start - 1)
      have := (scan_back_le_and_fuel mapping b f (start - 1)).1
      omega
    · rw [scan_back, if_neg hc]
      push_neg at hc
      by_cases h0 : start = 0
      · exact Or.inl h0
      · exact Or.inr (hc (by omega))

theorem scan_forward_le_and_fuel (mapping : List VerseEntry) (b : Int) :
    ∀ (fuel stop : Nat),
      stop ≤ scan_forward mapping b fuel stop ∧
      scan_forward mapping b fuel stop - stop ≤ fuel := by
  intro fuel
  induction fuel with
  | zero =>
    intro stop
    simp [scan_forward]
  | succ f ih =>
    intro stop
    by_cases hc : stop + 1 < mapping.length ∧
        (mapping.getD (stop + 1) default).book_id = b
    · rw [scan_forward, if_pos hc]
      obtain ⟨ih1, ih2⟩ := ih (stop + 1)
      omega
    · rw [scan_forward, if_neg hc]
      omega

theorem scan_forward_lt_length (mapping : List VerseEntry) (b : Int) :
    ∀ (fuel stop : Nat), stop < mapping.length →
      scan_forward mapping b fuel stop < mapping.length := by
  intro fuel
  induction fuel with
  | zero =>
    intro stop h
    simpa [scan_forward] using h
  | succ f ih =>
    intro stop h
    by_cases hc : stop + 1 < mapping.length ∧
        (mapping.getD (stop + 1) default).book_id = b
    · rw [scan_forward, if_pos hc]
      exact ih (stop + 1) hc.1
    · rwa [scan_forward, if_neg hc]

theorem scan_forward_same_book (mapping : List VerseEntry) (b : Int) :
    ∀ (fuel stop : Nat), (mapping.getD stop default).book_id = b →
      ∀ i, stop ≤ i → i ≤ scan_forward mapping b fuel stop →
        (mapping.getD i default).book_id = b := by
  intro fuel
  induction fuel with
  | zero =>
    intro stop hs i h1 h2
    simp only [scan_forward] at h2
    have : i = stop := le_antisymm h2 h1
    rwa [this]
  | succ f ih =>
    intro stop hs i h1 h2
    by_cases hc : stop + 1 < mapping.length ∧
        (mapping.getD (stop + 1) default).book_id = b
    · rw [scan_forward, if_pos hc] at h2
      rcases Nat.lt_or_ge stop i with hlt | hge
      · exact ih (stop + 1) hc.2 i (by omega) h2
      · have : i = stop := le_antisymm hge h1
        rwa [this]
    · rw [scan_forward, if_neg hc] at h2
      have : i = stop := le_antisymm h2 h1
      rwa [this]

theorem scan_forward_stop_reason (mapping : List VerseEntry) (b : Int) :
    ∀ (fuel stop : Nat), scan_forward mapping b fuel stop - stop < fuel →
      mapping.length ≤ scan_forward mapping b fuel stop + 1 ∨
      (mapping.getD (scan_forward mapping b fuel stop + 1) default).book_id ≠ b := by
  intro fuel
  induction fuel with
  | zero =>
    intro stop h
    simp only [scan_forward] at h
    omega
  | succ f ih =>
    intro stop h
    by_cases hc : stop + 1 < mapping.length ∧
        (mapping.getD (stop + 1) default).book_id = b
    · rw [scan_forward, if_pos hc] at h ⊢
      apply ih (stop + 1)
      have := (scan_forward_le_and_fuel mapping b f (stop + 1)).1
      omega
    · rw [scan_forward, if_neg hc]
      push_neg at hc
      by_cases hl : stop + 1 < mapping.length
      · exact Or.inr (hc hl)
      · exact Or.inl (by omega)

/-- Sample verse entry: Genesis 1:1 with book id 1. -/
def entA1 : VerseEntry := ⟨1, "gen", 1, "Genesis", "1", 1, "Creation", "1", "verse a1"⟩

/-- Sample verse entry: Genesis 1:2 with book id 1. -/
def entA2 : VerseEntry := ⟨2, "gen", 1, "Genesis", "1", 1, "Creation", "2", "verse a2"⟩

/-- Sample verse entry: Genesis 1:3 with book id 1. -/
def entA3 : VerseEntry := ⟨3, "gen", 1, "Genesis", "1", 1, "Creation", "3", "verse a3"⟩

/-- Sample verse entry: Exodus 1:1 with book id 2. -/
def entB1 : VerseEntry := ⟨4, "exo", 2, "Exodus", "1", 2, "Egypt", "1", "verse b1"⟩

/-- Sample verse entry: Exodus 1:2 with book id 2. -/
def entB2 : VerseEntry := ⟨5, "exo", 2, "Exodus", "1", 2, "Egypt", "2", "verse b2"⟩

/-- Sample mapping: three Genesis verses followed by two Exodus verses. -/
def sampleMapping : List VerseEntry := [entA1, entA2, entA3, entB1, entB2]

/-- Sample search result keyed to Genesis 1:2, mapping position 1. -/
def resultA2 : SearchResult := ⟨"Genesis", "1", "2", "verse a2", 0⟩

/-- C7: for every input result whose key is absent from the reverse index,
get_verse_context returns exactly one entry carrying the input result's own
chapter, verse, and text with is_match = true; it never raises and never
returns an empty sequence. -/
theorem claim_context_fallback (result : SearchResult) (mapping : List VerseEntry)
    (verse_index : String × String × String → Option Nat) (n : Nat)
    (h : verse_index (result.book_title, result.chapter, result.verse) = none) :
    get_verse_context result mapping verse_index n =
      [ContextEntry.mk result.chapter result.verse result.text true] := by
  simp only [get_verse_context, h]

/-- Witness for C7: a reverse index that never finds any key. -/
theorem claim_context_fallback_witness :
    get_verse_context resultA2 sampleMapping (fun _ => none) 2 =
      [ContextEntry.mk resultA2.chapter resultA2.verse resultA2.text true] :=
  claim_context_fallback resultA2 sampleMapping (fun _ => none) 2 rfl

/-- C5: on the found path the window is the contiguous inclusive range
from context_start to context_stop containing the found position, extends
at most n positions backward and at most n forward, stops early only at a
book boundary or a sequence edge, and never contains an entry whose book id
differs from the matched verse's book id. -/
theorem claim_context_window_shape (result : SearchResult)
    (mapping : List VerseEntry)
    (verse_index : String × String × String → Option Nat) (n idx : Nat)
    (h : verse_index (result.book_title, result.chapter, result.verse) = some idx)
    (hidx : idx < mapping.length) :
    context_start mapping n idx ≤ idx ∧
    idx ≤ context_stop mapping n idx ∧
    idx - context_start mapping n idx ≤ n ∧
    context_stop mapping n idx - idx ≤ n ∧
    context_stop mapping n idx < mapping.length ∧
    (∀ i, context_start mapping n idx ≤ i → i ≤ context_stop mapping n idx →
      (mapping.getD i default).book_id = (mapping.getD idx default).book_id) ∧
    (idx - context_start mapping n idx < n →
      context_start mapping n idx = 0 ∨
      (mapping.getD (context_start mapping n idx - 1) default).book_id ≠
        (mapping.getD idx default).book_id) ∧
    (context_stop mapping n idx - idx < n →
      context_stop mapping n idx + 1 = mapping.length ∨
      (mapping.getD (context_stop mapping n idx + 1) default).book_id ≠
        (mapping.getD idx default).book_id) ∧
    get_verse_context result mapping verse_index n =
      (List.range' (context_start mapping n idx)
        (context_stop mapping n idx + 1 - context_start mapping n idx)).map (fun i =>
          ContextEntry.mk (mapping.getD i default).chapter
            (mapping.getD i default).verse (mapping.getD i default).text
            (i == idx)) := by
  simp only [context_start, context_stop]
  obtain ⟨hs_le, hs_fuel⟩ :=
    scan_back_le_and_fuel mapping (mapping.getD idx default).book_id n idx
  obtain ⟨he_le, he_fuel⟩ :=
    scan_forward_le_and_fuel mapping (mapping.getD idx default).book_id n idx
  have hlen := scan_forward_lt_length mapping (mapping.getD idx default).book_id n idx hidx
  refine ⟨hs_le, he_le, hs_fuel, he_fuel, hlen, ?_, ?_, ?_, ?_⟩
  · intro i h1 h2
    rcases Nat.le_total i idx with hle | hge
    · exact scan_back_same_book mapping _ n idx rfl i h1 hle
    · exact scan_forward_same_book mapping _ n idx rfl i hge h2
  · intro hfuel
    exact scan_back_stop_reason mapping _ n idx hfuel
  · intro hfuel
    rcases scan_forward_stop_reason mapping _ n idx hfuel with h1 | h1
    · exact Or.inl (by omega)
    · exact Or.inr h1
  · simp only [get_verse_context, h]

/-- Witness for C5 at the sample mapping, the result keyed to Genesis 1:2
(mapping position 1) and n = 2. -/
theorem claim_context_window_shape_witness :
    context_start sampleMapping 2 1 ≤ 1 ∧
    1 ≤ context_stop sampleMapping 2 1 ∧
    1 - context_start sampleMapping 2 1 ≤ 2 ∧
    context_stop sampleMapping 2 1 - 1 ≤ 2 ∧
    context_stop sampleMapping 2 1 < sampleMapping.length ∧
    (sampleMapping.getD (context_stop sampleMapping 2 1) default).book_id =
      (sampleMapping.getD 1 default).book_id := by
  obtain ⟨h1, h2, h3, h4, h5, h6, -, -, -⟩ :=
    claim_context_window_shape resultA2 sampleMapping (build_verse_index sampleMapping)
      2 1 (by decide) (by decide)
  exact ⟨h1, h2, h3, h4, h5, h6 _ (le_trans h1 h2) (le_refl _)⟩

/-- C6: on the found path, exactly one entry of the returned window has
is_match = true, and it sits at offset idx - context_start, carrying the
fields of the mapping entry at the found position. -/
theorem claim_context_single_match (result : SearchResult)
    (mapping : List VerseEntry)
    (verse_index : String × String × String → Option Nat) (n idx : Nat)
    (h : verse_index (result.book_title, result.chapter, result.verse) = some idx)
    (_hidx : idx < mapping.length) :
    (get_verse_context result mapping verse_index n).countP (fun c => c.is_match) = 1 ∧
    (get_verse_context result mapping verse_index n)[idx - context_start mapping n idx]? =
      some (ContextEntry.mk (mapping.getD idx default).chapter
        (mapping.getD idx default).verse (mapping.getD idx default).text true) := by
  have hs_le : context_start mapping n idx ≤ idx :=
    (scan_back_le_and_fuel mapping (mapping.getD idx default).book_id n idx).1
  have he_le : idx ≤ context_stop mapping n idx :=
    (scan_forward_le_and_fuel mapping (mapping.getD idx default).book_id n idx).1
  have hwin : get_verse_context result mapping verse_index n =
      (List.range' (context_start mapping n idx)
        (context_stop mapping n idx + 1 - context_start mapping n idx)).map (fun i =>
          ContextEntry.mk (mapping.getD i default).chapter
            (mapping.getD i default).verse (mapping.getD i default).text
            (i == idx)) := by
    simp only [get_verse_context, h, context_start, context_stop]
  constructor
  · rw [hwin, List.countP_map]
    have hcomp : ((fun c : ContextEntry => c.is_match) ∘ (fun i : Nat =>
        ContextEntry.mk (mapping.getD i default).chapter
          (mapping.getD i default).verse (mapping.getD i default).text
          (i == idx))) = fun i : Nat => i == idx := rfl
    rw [hcomp, ← List.count_eq_countP]
    exact List.count_eq_one_of_mem (List.nodup_range' _ _)
      (List.mem_range'_1.mpr ⟨hs_le, by omega⟩)
  · have harith : context_start mapping n idx +
        1 * (idx - context_start mapping n idx) = idx := by omega
    rw [hwin, List.getElem?_map,
      List.getElem?_range' (context_start mapping n idx) 1
        (show idx - context_start mapping n idx <
          context_stop mapping n idx + 1 - context_start mapping n idx by omega),
      harith]
    simp

/-- Witness for C6 at the sample mapping, the result keyed to Genesis 1:2
(mapping position 1) and n = 2. -/
theorem claim_context_single_match_witness :
    (get_verse_context resultA2 sampleMapping
      (build_verse_index sampleMapping) 2).countP (fun c => c.is_match) = 1 ∧
    (get_verse_context resultA2 sampleMapping
      (build_verse_index sampleMapping) 2)[1 - context_start sampleMapping 2 1]? =
      some (ContextEntry.mk (sampleMapping.getD 1 default).chapter
        (sampleMapping.getD 1 default).verse (sampleMapping.getD 1 default).text true) :=
  claim_context_single_match resultA2 sampleMapping (build_verse_index sampleMapping)
    2 1 (by decide) (by decide)

theorem search_eq (query : String) (candidate_indices : List Int)
    (mapping : List VerseEntry) (cross_encoder : String → String → ℝ)
    (rerank_top_k : Nat) :
    search query candidate_indices mapping cross_encoder rerank_top_k =
      (((valid_candidates candidate_indices mapping).map (fun c =>
        SearchResult.mk c.2.2.book_title c.2.2.chapter c.2.2.verse c.2.2.text
          (sigmoid (cross_encoder (( QUERY_PREFIX ++ query).replace "\n" " ")
            c.2.1)))).mergeSort
        (fun a b => decide (b.score ≤ a.score))).take rerank_top_k := by
  simp only [search, normalize_scores, List.map_map, List.zipWith_map_right,
    List.zipWith_same]
  rfl

/-- C1: for every query and every index response, the sequence returned by
search is sorted in descending order of normalized score, and its length is
min(rerank_top_k, validCandidateCount), where validCandidateCount is the
number of returned index positions inside the mapping's range. -/
theorem claim_search_sorted_and_length (query : String) (candidate_indices : List Int)
    (mapping : List VerseEntry) (cross_encoder : String → String → ℝ)
    (rerank_top_k : Nat) :
    List.Sorted (fun a b : SearchResult => b.score ≤ a.score)
      (search query candidate_indices mapping cross_encoder rerank_top_k) ∧
    (search query candidate_indices mapping cross_encoder rerank_top_k).length =
      min rerank_top_k (valid_candidates candidate_indices mapping).length := by
  rw [search_eq]
  constructor
  · apply List.Pairwise.sublist (List.take_sublist _ _)
    have hp := @List.sorted_mergeSort SearchResult
      (fun a b => decide (b.score ≤ a.score))
      (fun a b c hab hbc => by
        simp only [decide_eq_true_eq] at hab hbc ⊢
        exact le_trans hbc hab)
      (fun a b => by
        simp only [Bool.or_eq_true, decide_eq_true_eq]
        exact le_total b.score a.score)
      ((valid_candidates candidate_indices mapping).map (fun c =>
        SearchResult.mk c.2.2.book_title c.2.2.chapter c.2.2.verse c.2.2.text
          (sigmoid (cross_encoder (( QUERY_PREFIX ++ query).replace "\n" " ")
            c.2.1))))
    exact hp.imp (fun h => of_decide_eq_true h)
  · rw [List.length_take, List.length_mergeSort, List.length_map]

/-- C4: for every query, if the index response leaves zero valid candidates
(in particular when the Vector Index is empty or returns only out-of-range
positions), search returns the empty sequence. -/
theorem claim_search_empty_on_no_candidates (query : String)
    (candidate_indices : List Int) (mapping : List VerseEntry)
    (cross_encoder : String → String → ℝ) (rerank_top_k : Nat)
    (h : valid_candidates candidate_indices mapping = []) :
    search query candidate_indices mapping cross_encoder rerank_top_k = [] := by
  rw [search_eq, h]
  simp

/-- Witness for C4: position -1 (as FAISS reports on an underfilled index)
and position 7 are both outside the sample mapping's range, so no valid
candidate remains. -/
theorem claim_search_empty_on_no_candidates_witness :
    valid_candidates [-1, 7] sampleMapping = [] ∧
    search "amour" [-1, 7] sampleMapping (fun _ _ => 0) 5 = [] :=
  ⟨rfl, claim_search_empty_on_no_candidates "amour" [-1, 7] sampleMapping
    (fun _ _ => 0) 5 rfl⟩

theorem mem_valid_candidates (candidate_indices : List Int) (mapping : List VerseEntry)
    (c : Nat × String × VerseEntry) :
    c ∈ valid_candidates candidate_indices mapping ↔
      ∃ idx ∈ candidate_indices, 0 ≤ idx ∧ idx < (mapping.length : Int) ∧
        c = (idx.toNat, (mapping.getD idx.toNat default).text.replace "\n" " ",
          mapping.getD idx.toNat default) := by
  unfold valid_candidates
  rw [List.mem_filterMap]
  constructor
  · rintro ⟨idx, hmem, hf⟩
    by_cases hcond : 0 ≤ idx ∧ idx < (mapping.length : Int)
    · rw [if_pos hcond] at hf
      exact ⟨idx, hmem, hcond.1, hcond.2, (Option.some_inj.mp hf).symm⟩
    · rw [if_neg hcond] at hf
      cases hf
  · rintro ⟨idx, hmem, h0, hlt, rfl⟩
    exact ⟨idx, hmem, by rw [if_pos ⟨h0, hlt⟩]⟩

/-- C8: a position returned by the Vector Index is kept as a candidate iff
it lies in the interval from 0 to the mapping length; kept candidates carry
in-range positions, so the mapping lookup never goes out of bounds, and the
entry and pair text are exactly the looked-up mapping entry's. -/
theorem claim_candidate_filter (candidate_indices : List Int)
    (mapping : List VerseEntry) :
    (∀ idx : Int, idx ∈ candidate_indices →
      ((∃ c ∈ valid_candidates candidate_indices mapping, (c.1 : Int) = idx) ↔
        (0 ≤ idx ∧ idx < (mapping.length : Int)))) ∧
    (∀ c ∈ valid_candidates candidate_indices mapping,
      c.1 < mapping.length ∧ c.2.2 = mapping.getD c.1 default ∧
      c.2.1 = (mapping.getD c.1 default).text.replace "\n" " ") := by
  constructor
  · intro idx hmem
    constructor
    · rintro ⟨c, hc, hidx⟩
      obtain ⟨a, _, h0, hlt, rfl⟩ := (mem_valid_candidates _ _ _).mp hc
      have : (a.toNat : Int) = a := Int.toNat_of_nonneg h0
      simp only [← hidx, this]
      omega
    · rintro ⟨h0, hlt⟩
      refine ⟨(idx.toNat, (mapping.getD idx.toNat default).text.replace "\n" " ",
        mapping.getD idx.toNat default), ?_, Int.toNat_of_nonneg h0⟩
      exact (mem_valid_candidates _ _ _).mpr ⟨idx, hmem, h0, hlt, rfl⟩
  · intro c hc
    obtain ⟨a, _, h0, hlt, rfl⟩ := (mem_valid_candidates _ _ _).mp hc
    refine ⟨?_, rfl, rfl⟩
    omega

/-- C9: every result returned by search is built from some valid candidate:
its four text fields are copied from the mapping entry (the text field being
the original, non-stripped verse text), its score is the sigmoid of the
cross-encoder score of the pair built from the newline-stripped text, and
the record carries exactly these five fields. -/
theorem claim_search_result_fields (query : String) (candidate_indices : List Int)
    (mapping : List VerseEntry) (cross_encoder : String → String → ℝ)
    (rerank_top_k : Nat) (r : SearchResult)
    (h : r ∈ search query candidate_indices mapping cross_encoder rerank_top_k) :
    ∃ c ∈ valid_candidates candidate_indices mapping,
      r = SearchResult.mk c.2.2.book_title c.2.2.chapter c.2.2.verse c.2.2.text
        (sigmoid (cross_encoder (( QUERY_PREFIX ++ query).replace "\n" " ")
          c.2.1)) ∧
      r.text = c.2.2.text ∧
      c.2.1 = c.2.2.text.replace "\n" " " := by
  rw [search_eq] at h
  have h2 := (List.take_sublist _ _).mem h
  rw [(List.mergeSort_perm _ _).mem_iff] at h2
  obtain ⟨c, hc, rfl⟩ := List.mem_map.mp h2
  obtain ⟨a, _, h0, hlt, rfl⟩ := (mem_valid_candidates _ _ _).mp hc
  exact ⟨_, hc, rfl, rfl, rfl⟩

/-- Witness for C9: the sample mapping with the index returning position 0
and a constant-zero cross-encoder; the single result is built from entA1. -/
theorem claim_search_result_fields_witness :
    ∃ c ∈ valid_candidates [0] sampleMapping,
      SearchResult.mk entA1.book_title entA1.chapter entA1.verse entA1.text
          (sigmoid ((fun _ _ => (0 : ℝ)) (( QUERY_PREFIX ++ "amour").replace "\n" " ")
            (entA1.text.replace "\n" " "))) =
        SearchResult.mk c.2.2.book_title c.2.2.chapter c.2.2.verse c.2.2.text
          (sigmoid ((fun _ _ => (0 : ℝ)) (( QUERY_PREFIX ++ "amour").replace "\n" " ")
            c.2.1)) ∧
      (SearchResult.mk entA1.book_title entA1.chapter entA1.verse entA1.text
          (sigmoid ((fun _ _ => (0 : ℝ)) (( QUERY_PREFIX ++ "amour").replace "\n" " ")
            (entA1.text.replace "\n" " ")))).text = c.2.2.text ∧
      c.2.1 = c.2.2.text.replace "\n" " " :=
  claim_search_result_fields "amour" [0] sampleMapping (fun _ _ => 0) 5
    (SearchResult.mk entA1.book_title entA1.chapter entA1.verse entA1.text
      (sigmoid ((fun _ _ => (0 : ℝ)) (( QUERY_PREFIX ++ "amour").replace "\n" " ")
        (entA1.text.replace "\n" " "))))
    (by rw [search_eq]
        simp [valid_candidates, List.mergeSort_singleton, sampleMapping])

theorem build_verse_index_concat (mapping : List VerseEntry) (e : VerseEntry) :
    build_verse_index (mapping ++ [e]) =
      dict_insert (build_verse_index mapping) (e.book_title, e.chapter, e.verse)
        mapping.length := by
  unfold build_verse_index
  rw [List.enum_append, List.foldl_append]
  rfl

/-- C10: the reverse index built at load time maps a key to position i iff
the mapping entry at i carries that key and no later entry does: duplicate
(book_title, chapter, verse) triples resolve to the largest (last-occurring)
mapping position, which is the position get_verse_context then expands. -/
theorem claim_verse_index_last_occurrence (mapping : List VerseEntry)
    (key : String × String × String) (i : Nat) :
    build_verse_index mapping key = some i ↔
      ((∃ e, mapping[i]? = some e ∧ (e.book_title, e.chapter, e.verse) = key) ∧
       (∀ j e2, i < j → mapping[j]? = some e2 →
         (e2.book_title, e2.chapter, e2.verse) ≠ key)) := by
  induction mapping using List.reverseRecOn with
  | nil =>
    simp [build_verse_index]
  | append_singleton m e ih =>
    rw [build_verse_index_concat]
    unfold dict_insert
    by_cases hk : key = (e.book_title, e.chapter, e.verse)
    · rw [if_pos hk]
      constructor
      · intro h
        have hi : i = m.length := (Option.some_inj.mp h).symm
        subst hi
        refine ⟨⟨e, List.getElem?_concat_length m e, hk.symm⟩, ?_⟩
        intro j e2 hj hget
        have : (m ++ [e]).length ≤ j := by
          simp only [List.length_append, List.length_singleton]
          omega
        rw [List.getElem?_eq_none this] at hget
        cases hget
      · rintro ⟨⟨e1, hget, _⟩, hlast⟩
        have hibound : i < m.length + 1 := by
          obtain ⟨hlt, -⟩ := List.getElem?_eq_some.mp hget
          simpa using hlt
        rcases Nat.lt_or_ge i m.length with hlt | hge
        · exfalso
          exact hlast m.length e hlt (List.getElem?_concat_length m e) hk.symm
        · have : i = m.length := by omega
          rw [this]
    · rw [if_neg hk, ih]
      have hne : ∀ e2 : VerseEntry, (m ++ [e])[m.length]? = some e2 →
          (e2.book_title, e2.chapter, e2.verse) ≠ key := by
        intro e2 hget
        rw [List.getElem?_concat_length m e] at hget
        have : e2 = e := (Option.some_inj.mp hget).symm
        rw [this]
        exact fun hcontra => hk (hcontra.symm)
      constructor
      · rintro ⟨⟨e1, hget, hkey⟩, hlast⟩
        have hil : i < m.length := (List.getElem?_eq_some.mp hget).1
        refine ⟨⟨e1, by rw [List.getElem?_append_left hil]; exact hget, hkey⟩, ?_⟩
        intro j e2 hj hget2
        rcases Nat.lt_or_ge j m.length with hjl | hjg
        · rw [List.getElem?_append_left hjl] at hget2
          exact hlast j e2 hj hget2
        · rcases Nat.eq_or_lt_of_le hjg with heq | hgt
          · exact hne e2 (heq ▸ hget2)
          · have : (m ++ [e]).length ≤ j := by
              simp only [List.length_append, List.length_singleton]
              omega
            rw [List.getElem?_eq_none this] at hget2
            cases hget2
      · rintro ⟨⟨e1, hget, hkey⟩, hlast⟩
        have hibound : i < m.length + 1 := by
          obtain ⟨hlt, -⟩ := List.getElem?_eq_some.mp hget
          simpa using hlt
        have hil : i < m.length := by
          rcases Nat.lt_or_ge i m.length with h1 | h1
          · exact h1
          · exfalso
            have : i = m.length := by omega
            subst this
            exact hne e1 hget hkey
        rw [List.getElem?_append_left hil] at hget
        refine ⟨⟨e1, hget, hkey⟩, ?_⟩
        intro j e2 hj hget2
        have hjl : j < m.length := (List.getElem?_eq_some.mp hget2).1
        apply hlast j e2 hj
        rw [List.getElem?_append_left hjl]
        exact hget2

end RagBible
